import Mathlib

/-
Verification of the Othello rules engine from src/main.rs.

The board is an 8x8 grid of cells; the engine resolves a click at (row, col)
by scanning the 8 direction rays for a run that "ignites" (reaches a cell of
the active player's colour after first stepping onto an opponent cell),
flips the run, places the piece and toggles the turn.  `handle_click` models
the move-resolution part of the source's handle_click (the cursor-to-cell
mapping is an external collaborator); an out-of-bounds board index, which
in Rust aborts the program, is modelled by returning `none`.
-/

set_option maxHeartbeats 1000000

inductive CellState
  | Empty
  | White
  | Black
deriving DecidableEq

inductive WhiteOrBlack
  | White
  | Black
deriving DecidableEq

abbrev Board := Fin 8 → Fin 8 → CellState

structure GameState where
  board : Board
  current_turn : WhiteOrBlack
  white_score : Nat
  black_score : Nat

instance : DecidableEq GameState := fun a b =>
  decidable_of_iff
    (a.board = b.board ∧ a.current_turn = b.current_turn ∧
      a.white_score = b.white_score ∧ a.black_score = b.black_score)
    (by cases a; cases b; simp)

instance : DecidableEq (Option (GameState × Bool)) := fun a b =>
  match a, b with
  | none, none => isTrue rfl
  | some x, some y => decidable_of_iff (x = y) (by simp)
  | none, some _ => isFalse (by simp)
  | some _, none => isFalse (by simp)

/-- The cell colour of the active player (source: `current` in handle_click). -/
def colorOf : WhiteOrBlack → CellState
  | WhiteOrBlack.White => CellState.White
  | WhiteOrBlack.Black => CellState.Black

/-- The cell colour of the opponent (source: `target` in handle_click). -/
def oppColorOf : WhiteOrBlack → CellState
  | WhiteOrBlack.White => CellState.Black
  | WhiteOrBlack.Black => CellState.White

def toggleTurn : WhiteOrBlack → WhiteOrBlack
  | WhiteOrBlack.White => WhiteOrBlack.Black
  | WhiteOrBlack.Black => WhiteOrBlack.White

/-- In-bounds predicate on signed coordinates (source: the isize bounds checks). -/
abbrev inBp (r c : Int) : Prop := 0 ≤ r ∧ r < 8 ∧ 0 ≤ c ∧ c < 8

/-- Read a cell at signed coordinates; only ever used behind bounds checks. -/
def cellAt (b : Board) (r c : Int) : CellState :=
  if h : inBp r c then b ⟨r.toNat, by omega⟩ ⟨c.toNat, by omega⟩ else CellState.Empty

def updateCell (b : Board) (i j : Fin 8) (v : CellState) : Board :=
  fun x y => if x = i ∧ y = j then v else b x y

/-- Write a cell at signed coordinates; `none` models the Rust index-out-of-bounds abort. -/
def updateCellI (b : Board) (r c : Int) (v : CellState) : Option Board :=
  if h : inBp r c then some (updateCell b ⟨r.toNat, by omega⟩ ⟨c.toNat, by omega⟩ v) else none

def emptyBoard : Board := fun _ _ => CellState.Empty

/-- Source `reset_game_state`: clear every cell, scores 2/2, turn White, then
place White at (3,3),(4,4) and Black at (3,4),(4,3). -/
def reset_game_state (_gs : GameState) : GameState :=
  { board := updateCell (updateCell (updateCell (updateCell emptyBoard 3 3 CellState.White)
      4 4 CellState.White) 3 4 CellState.Black) 4 3 CellState.Black,
    current_turn := WhiteOrBlack.White,
    white_score := 2,
    black_score := 2 }

def initState : GameState :=
  reset_game_state { board := emptyBoard, current_turn := WhiteOrBlack.White,
                     white_score := 0, black_score := 0 }

/-- The 64 cells in the row-major order the source loops traverse. -/
def boardCells (b : Board) : List CellState :=
  ((List.finRange 8).map (fun i => (List.finRange 8).map (fun j => b i j))).flatten

def specCount (b : Board) (v : CellState) : Nat := (boardCells b).count v

/-- One step of `calculate_score`'s accumulation loop. -/
def scoreStep (acc : Nat × Nat) (cell : CellState) : Nat × Nat :=
  match cell with
  | CellState.White => (acc.1 + 1, acc.2)
  | CellState.Black => (acc.1, acc.2 + 1)
  | CellState.Empty => acc

def calcScores (b : Board) : Nat × Nat := (boardCells b).foldl scoreStep (0, 0)

/-- Source `calculate_score`: overwrite both score fields from a fresh board scan. -/
def calculate_score (gs : GameState) : GameState :=
  { gs with white_score := (calcScores gs.board).1, black_score := (calcScores gs.board).2 }

/-- One step of `check_game_over`'s flag accumulation (exist_white, exist_black, full_filled). -/
def overStep (acc : Bool × Bool × Bool) (cell : CellState) : Bool × Bool × Bool :=
  match cell with
  | CellState.White => (true, acc.2.1, acc.2.2)
  | CellState.Black => (acc.1, true, acc.2.2)
  | CellState.Empty => (acc.1, acc.2.1, false)

def gameOverFlags (b : Board) : Bool × Bool × Bool :=
  (boardCells b).foldl overStep (false, false, true)

/-- Source `check_game_over`'s condition: `!exist_white || !exist_black || full_filled`. -/
def check_game_over (gs : GameState) : Bool :=
  !(gameOverFlags gs.board).1 || !(gameOverFlags gs.board).2.1 || (gameOverFlags gs.board).2.2

/-- The 8 direction vectors, in the order of the source's nested -1..=1 loops
with (0,0) skipped. -/
def dirList : List (Int × Int) :=
  [(-1, -1), (-1, 0), (-1, 1), (0, -1), (0, 1), (1, -1), (1, 0), (1, 1)]

/-- The directional scan loop of handle_click.  Returns `some (some k)` when the ray
ignites after k steps, `some none` when the direction is abandoned, and `none` if the
fuel runs out (proved impossible with fuel 8 from an in-bounds start).  The bounds
check, the `lock_on` abandon check and the ignition check mirror the source order. -/
def seekAux (b : Board) (cur tgt : CellState) (dr dc : Int) :
    Nat → Int → Int → Bool → Option (Option Nat)
  | 0, _, _, _ => none
  | fuel + 1, sr, sc, lockOn =>
    if inBp (sr + dr) (sc + dc) then
      if lockOn = false ∧ cellAt b (sr + dr) (sc + dc) ≠ tgt then some none
      else if cellAt b (sr + dr) (sc + dc) = cur then some (some 1)
      else
        match seekAux b cur tgt dr dc fuel (sr + dr) (sc + dc) true with
        | none => none
        | some none => some none
        | some (some k) => some (some (k + 1))
    else some none

/-- The scan with the source's outer while-condition on the start cell. -/
def seek (b : Board) (cur tgt : CellState) (r c dr dc : Int) : Option (Option Nat) :=
  if inBp r c then seekAux b cur tgt dr dc 8 r c false else some none

/-- The ignition step count of a direction, `none` when the ray does not ignite. -/
def seekIdx (b : Board) (cur tgt : CellState) (r c : Int) (d : Int × Int) : Option Nat :=
  match seek b cur tgt r c d.1 d.2 with
  | some (some k) => some k
  | _ => none

/-- The backwards flip loop: from the ignition cell walk back towards the target,
painting each visited cell `cur`, stopping on reaching the target.  `none` models
fuel exhaustion or an out-of-bounds write (both proved impossible in context). -/
def flipBackAux (cur : CellState) (tr tc dr dc : Int) :
    Nat → Int → Int → Board → Option Board
  | 0, sr, sc, b => if sr = tr ∧ sc = tc then some b else none
  | fuel + 1, sr, sc, b =>
    if sr = tr ∧ sc = tc then some b
    else
      match updateCellI b sr sc cur with
      | none => none
      | some b2 => flipBackAux cur tr tc dr dc fuel (sr - dr) (sc - dc) b2

/-- The direction loop of handle_click: scan each direction on the current board,
flip immediately on ignition, and record whether any direction ignited. -/
def processDirs (cur tgt : CellState) (r c : Int) :
    List (Int × Int) → Board → Bool → Option (Board × Bool)
  | [], b, found => some (b, found)
  | d :: ds, b, found =>
    match seek b cur tgt r c d.1 d.2 with
    | none => none
    | some none => processDirs cur tgt r c ds b found
    | some (some k) =>
      match flipBackAux cur r c d.1 d.2 8 (r + (k : Int) * d.1) (c + (k : Int) * d.2) b with
      | none => none
      | some b2 => processDirs cur tgt r c ds b2 true

/-- The move resolution of the source's handle_click, given the already-resolved
cell coordinates.  Returns the new state and whether a move occurred; `none`
models the index-out-of-bounds abort on an out-of-range coordinate. -/
def handle_click (gs : GameState) (row col : Nat) : Option (GameState × Bool) :=
  if h : row < 8 ∧ col < 8 then
    if gs.board ⟨row, h.1⟩ ⟨col, h.2⟩ ≠ CellState.Empty then some (gs, false)
    else
      match processDirs (colorOf gs.current_turn) (oppColorOf gs.current_turn)
          (row : Int) (col : Int) dirList gs.board false with
      | none => none
      | some (b, found) =>
        if found then
          some ({ board := updateCell b ⟨row, h.1⟩ ⟨col, h.2⟩ (colorOf gs.current_turn),
                  current_turn := toggleTurn gs.current_turn,
                  white_score := gs.white_score,
                  black_score := gs.black_score }, true)
        else some ({ gs with board := b }, false)
  else none

/-- Whether any direction ignites, determined on a fixed board. -/
def anyIg (b0 : Board) (cur tgt : CellState) (r c : Int) (ds : List (Int × Int)) : Bool :=
  ds.any fun d => (seekIdx b0 cur tgt r c d).isSome

/-- Whether cell (x,y) lies on the flipped segment of some igniting direction,
everything determined on the fixed pre-move board b0. -/
def flipHit (b0 : Board) (cur tgt : CellState) (r c : Int) (ds : List (Int × Int))
    (x y : Int) : Bool :=
  ds.any fun d =>
    match seekIdx b0 cur tgt r c d with
    | none => false
    | some k =>
      @decide (∃ i ∈ Finset.Icc 1 k, x = r + (i : Int) * d.1 ∧ y = c + (i : Int) * d.2)
        Finset.decidableExistsAndFinset

/-- Ignition condition of a ray as the code actually implements it: the first
stepped cell holds the opponent colour, and some later in-bounds cell on the ray
holds the current colour (cells in between may be anything but the current colour,
including Empty). -/
def igniteCond (b : Board) (cur tgt : CellState) (r c : Int) (d : Int × Int) : Prop :=
  inBp (r + d.1) (c + d.2) ∧ cellAt b (r + d.1) (c + d.2) = tgt ∧
    ∃ k ∈ Finset.Icc (2 : Nat) 8,
      (∀ i ∈ Finset.Icc (1 : Nat) k, inBp (r + (i : Int) * d.1) (c + (i : Int) * d.2)) ∧
      cellAt b (r + (k : Int) * d.1) (c + (k : Int) * d.2) = cur

instance (b : Board) (cur tgt : CellState) (r c : Int) (d : Int × Int) :
    Decidable (igniteCond b cur tgt r c d) := by
  unfold igniteCond; infer_instance

/-- Ray condition as the specification sentence words it: one or more opponent
cells followed immediately by a current-player cell, all within bounds. -/
def specRay (b : Board) (cur tgt : CellState) (r c : Int) (d : Int × Int) : Prop :=
  ∃ k ∈ Finset.Icc (1 : Nat) 7,
    (∀ i ∈ Finset.Icc (1 : Nat) k,
      inBp (r + (i : Int) * d.1) (c + (i : Int) * d.2) ∧
      cellAt b (r + (i : Int) * d.1) (c + (i : Int) * d.2) = tgt) ∧
    inBp (r + ((k : Int) + 1) * d.1) (c + ((k : Int) + 1) * d.2) ∧
    cellAt b (r + ((k : Int) + 1) * d.1) (c + ((k : Int) + 1) * d.2) = cur

instance (b : Board) (cur tgt : CellState) (r c : Int) (d : Int × Int) :
    Decidable (specRay b cur tgt r c d) := by
  unfold specRay; infer_instance

/-- State after the first move (2,4) from the initial position. -/
def afterFirstMove : GameState :=
  { board := updateCell (updateCell initState.board 3 4 CellState.White) 2 4 CellState.White,
    current_turn := WhiteOrBlack.Black,
    white_score := 2,
    black_score := 2 }

/-- Board witnessing the divergence between the code's ignition rule and the
spec sentence: ray east from (0,0) reads Black, Empty, White. -/
def cexBoard : Board := updateCell (updateCell emptyBoard 0 1 CellState.Black) 0 3 CellState.White

def cexState : GameState :=
  { board := cexBoard, current_turn := WhiteOrBlack.White, white_score := 0, black_score := 0 }

/-- State after the (accepted) click at (0,0) on `cexState`: the whole run
(0,1),(0,2),(0,3) is painted White and (0,0) is placed. -/
def cexAfter : GameState :=
  { board := updateCell (updateCell (updateCell (updateCell cexBoard 0 1 CellState.White)
      0 2 CellState.White) 0 3 CellState.White) 0 0 CellState.White,
    current_turn := WhiteOrBlack.Black,
    white_score := 0,
    black_score := 0 }

lemma cellAt_of_inB (b : Board) {x y : Int} (h : inBp x y) :
    cellAt b x y = b ⟨x.toNat, by omega⟩ ⟨y.toNat, by omega⟩ := by
  rw [cellAt, dif_pos h]

lemma cellAt_coe (b : Board) (row col : Nat) (h1 : row < 8) (h2 : col < 8) :
    cellAt b (row : Int) (col : Int) = b ⟨row, h1⟩ ⟨col, h2⟩ := by
  rw [cellAt_of_inB b (by omega)]
  have e1 : (⟨((row : Int)).toNat, by omega⟩ : Fin 8) = ⟨row, h1⟩ := by
    apply Fin.ext; simp only [Fin.val_mk]; omega
  have e2 : (⟨((col : Int)).toNat, by omega⟩ : Fin 8) = ⟨col, h2⟩ := by
    apply Fin.ext; simp only [Fin.val_mk]; omega
  rw [e1, e2]

lemma cellAt_updateCell (b : Board) (i j : Fin 8) (v : CellState) (x y : Int) :
    cellAt (updateCell b i j v) x y =
      if x = ((i : Nat) : Int) ∧ y = ((j : Nat) : Int) then v else cellAt b x y := by
  by_cases h : inBp x y
  · rw [cellAt_of_inB _ h, cellAt_of_inB b h]
    have hxi : ((⟨x.toNat, by omega⟩ : Fin 8) = i) ↔ x = ((i : Nat) : Int) := by
      rw [Fin.ext_iff]
      simp only [Fin.val_mk]
      omega
    have hyj : ((⟨y.toNat, by omega⟩ : Fin 8) = j) ↔ y = ((j : Nat) : Int) := by
      rw [Fin.ext_iff]
      simp only [Fin.val_mk]
      omega
    rw [updateCell]
    simp only [hxi, hyj]
  · rw [cellAt, dif_neg h, cellAt, dif_neg h]
    rw [if_neg]
    rintro ⟨rfl, rfl⟩
    exact h ⟨by omega, by have := i.isLt; omega, by omega, by have := j.isLt; omega⟩

lemma cellAt_updateCellI (b b2 : Board) {r c : Int} (v : CellState) (h : inBp r c)
    (heq : updateCellI b r c v = some b2) (x y : Int) :
    cellAt b2 x y = if x = r ∧ y = c then v else cellAt b x y := by
  rw [updateCellI, dif_pos h] at heq
  have hb2 := Option.some.inj heq
  subst hb2
  rw [cellAt_updateCell]
  have e1 : (((⟨r.toNat, by omega⟩ : Fin 8) : Nat) : Int) = r := by simp; omega
  have e2 : (((⟨c.toNat, by omega⟩ : Fin 8) : Nat) : Int) = c := by simp; omega
  rw [e1, e2]

lemma stepPos (s d : Int) {i : Nat} (hi : 1 ≤ i) :
    s + d + ((i - 1 : Nat) : Int) * d = s + (i : Int) * d := by
  have : ((i - 1 : Nat) : Int) = (i : Int) - 1 := by omega
  rw [this]; ring

/-- Soundness of the scan loop once `lock_on` is set: an ignition after k steps
means the k-th cell on the ray is `cur`, all visited cells are in bounds, and no
earlier visited cell is `cur`. -/
lemma seekAux_true_sound (b : Board) (cur tgt : CellState) (dr dc : Int) :
    ∀ (fuel : Nat) (sr sc : Int) (k : Nat),
      seekAux b cur tgt dr dc fuel sr sc true = some (some k) →
      1 ≤ k ∧ k ≤ fuel ∧
      (∀ i : Nat, 1 ≤ i → i ≤ k → inBp (sr + (i : Int) * dr) (sc + (i : Int) * dc)) ∧
      cellAt b (sr + (k : Int) * dr) (sc + (k : Int) * dc) = cur ∧
      (∀ i : Nat, 1 ≤ i → i < k →
        cellAt b (sr + (i : Int) * dr) (sc + (i : Int) * dc) ≠ cur) := by
  intro fuel
  induction fuel with
  | zero => intro sr sc k h; simp [seekAux] at h
  | succ n ih =>
    intro sr sc k h
    simp only [seekAux] at h
    by_cases hb : inBp (sr + dr) (sc + dc)
    · rw [if_pos hb, if_neg (by simp)] at h
      by_cases hc : cellAt b (sr + dr) (sc + dc) = cur
      · rw [if_pos hc] at h
        obtain rfl : (1 : Nat) = k := by simpa using h
        refine ⟨le_refl 1, by omega, ?_, by simpa using hc, ?_⟩
        · intro i h1 h2
          obtain rfl : i = 1 := by omega
          simpa using hb
        · intro i h1 h2; omega
      · rw [if_neg hc] at h
        cases hrec : seekAux b cur tgt dr dc n (sr + dr) (sc + dc) true with
        | none => rw [hrec] at h; simp at h
        | some o =>
          cases o with
          | none => rw [hrec] at h; simp at h
          | some k0 =>
            rw [hrec] at h
            simp only [Option.some.injEq] at h
            subst h
            obtain ⟨h1, h2, h3, h4, h5⟩ := ih (sr + dr) (sc + dc) k0 hrec
            refine ⟨by omega, by omega, ?_, ?_, ?_⟩
            · intro i hi1 hi2
              by_cases hi : i = 1
              · subst hi; simpa using hb
              · have hthis := h3 (i - 1) (by omega) (by omega)
                rw [stepPos sr dr (by omega : 1 ≤ i), stepPos sc dc (by omega : 1 ≤ i)] at hthis
                exact hthis
            · have e1 : sr + ((k0 + 1 : Nat) : Int) * dr = sr + dr + (k0 : Int) * dr := by
                push_cast; ring
              have e2 : sc + ((k0 + 1 : Nat) : Int) * dc = sc + dc + (k0 : Int) * dc := by
                push_cast; ring
              rw [e1, e2]
              exact h4
            · intro i hi1 hi2
              by_cases hi : i = 1
              · subst hi; simpa using hc
              · have hthis := h5 (i - 1) (by omega) (by omega)
                rw [stepPos sr dr (by omega : 1 ≤ i), stepPos sc dc (by omega : 1 ≤ i)] at hthis
                exact hthis
    · rw [if_neg hb] at h; simp at h

/-- Soundness of the scan loop from the start (lock_on clear): additionally the
first stepped cell holds the opponent colour and k is at least 2. -/
lemma seekAux_false_sound (b : Board) (cur tgt : CellState) (dr dc : Int)
    (hct : cur ≠ tgt) :
    ∀ (fuel : Nat) (sr sc : Int) (k : Nat),
      seekAux b cur tgt dr dc fuel sr sc false = some (some k) →
      2 ≤ k ∧ k ≤ fuel ∧
      (∀ i : Nat, 1 ≤ i → i ≤ k → inBp (sr + (i : Int) * dr) (sc + (i : Int) * dc)) ∧
      cellAt b (sr + dr) (sc + dc) = tgt ∧
      cellAt b (sr + (k : Int) * dr) (sc + (k : Int) * dc) = cur ∧
      (∀ i : Nat, 1 ≤ i → i < k →
        cellAt b (sr + (i : Int) * dr) (sc + (i : Int) * dc) ≠ cur) := by
  intro fuel
  cases fuel with
  | zero => intro sr sc k h; simp [seekAux] at h
  | succ n =>
    intro sr sc k h
    simp only [seekAux] at h
    by_cases hb : inBp (sr + dr) (sc + dc)
    · rw [if_pos hb] at h
      by_cases ht : cellAt b (sr + dr) (sc + dc) = tgt
      · rw [if_neg (by simp [ht])] at h
        have hc : cellAt b (sr + dr) (sc + dc) ≠ cur := by rw [ht]; exact fun e => hct e.symm
        rw [if_neg hc] at h
        cases hrec : seekAux b cur tgt dr dc n (sr + dr) (sc + dc) true with
        | none => rw [hrec] at h; simp at h
        | some o =>
          cases o with
          | none => rw [hrec] at h; simp at h
          | some k0 =>
            rw [hrec] at h
            simp only [Option.some.injEq] at h
            subst h
            obtain ⟨h1, h2, h3, h4, h5⟩ := seekAux_true_sound b cur tgt dr dc n
              (sr + dr) (sc + dc) k0 hrec
            refine ⟨by omega, by omega, ?_, ht, ?_, ?_⟩
            · intro i hi1 hi2
              by_cases hi : i = 1
              · subst hi; simpa using hb
              · have hthis := h3 (i - 1) (by omega) (by omega)
                rw [stepPos sr dr (by omega : 1 ≤ i), stepPos sc dc (by omega : 1 ≤ i)] at hthis
                exact hthis
            · have e1 : sr + ((k0 + 1 : Nat) : Int) * dr = sr + dr + (k0 : Int) * dr := by
                push_cast; ring
              have e2 : sc + ((k0 + 1 : Nat) : Int) * dc = sc + dc + (k0 : Int) * dc := by
                push_cast; ring
              rw [e1, e2]
              exact h4
            · intro i hi1 hi2
              by_cases hi : i = 1
              · subst hi
                have hne : cellAt b (sr + dr) (sc + dc) ≠ cur := by
                  rw [ht]; exact fun e => hct e.symm
                simpa using hne
              · have hthis := h5 (i - 1) (by omega) (by omega)
                rw [stepPos sr dr (by omega : 1 ≤ i), stepPos sc dc (by omega : 1 ≤ i)] at hthis
                exact hthis
      · rw [if_pos (And.intro (by simp) ht)] at h
        simp at h
    · rw [if_neg hb] at h; simp at h

lemma posSucc (s d : Int) (i : Nat) :
    s + d + (i : Int) * d = s + ((i + 1 : Nat) : Int) * d := by
  push_cast; ring

/-- Completeness of the scan loop once `lock_on` is set: if the k-th cell on the
ray is the first `cur` cell and the path is in bounds, the scan ignites at k. -/
lemma seekAux_true_complete (b : Board) (cur tgt : CellState) (dr dc : Int) :
    ∀ (fuel : Nat) (sr sc : Int) (k : Nat),
      1 ≤ k → k ≤ fuel →
      (∀ i : Nat, 1 ≤ i → i ≤ k → inBp (sr + (i : Int) * dr) (sc + (i : Int) * dc)) →
      cellAt b (sr + (k : Int) * dr) (sc + (k : Int) * dc) = cur →
      (∀ i : Nat, 1 ≤ i → i < k →
        cellAt b (sr + (i : Int) * dr) (sc + (i : Int) * dc) ≠ cur) →
      seekAux b cur tgt dr dc fuel sr sc true = some (some k) := by
  intro fuel
  induction fuel with
  | zero => intro sr sc k hk1 hk0 _ _ _; omega
  | succ n ih =>
    intro sr sc k hk1 hkf hbounds hcur hmin
    simp only [seekAux]
    have hb : inBp (sr + dr) (sc + dc) := by
      have := hbounds 1 (by omega) (by omega)
      simpa using this
    rw [if_pos hb, if_neg (by simp)]
    by_cases hc : cellAt b (sr + dr) (sc + dc) = cur
    · have hk : k = 1 := by
        by_contra hne
        have := hmin 1 (by omega) (by omega)
        apply this
        simpa using hc
      subst hk
      rw [if_pos hc]
    · rw [if_neg hc]
      have hk2 : 2 ≤ k := by
        rcases Nat.eq_or_lt_of_le hk1 with he | hl
        · exfalso; apply hc
          have := hcur
          rw [← he] at this
          simpa using this
        · omega
      have hrec : seekAux b cur tgt dr dc n (sr + dr) (sc + dc) true = some (some (k - 1)) := by
        apply ih
        · omega
        · omega
        · intro i hi1 hi2
          rw [posSucc sr dr i, posSucc sc dc i]
          exact hbounds (i + 1) (by omega) (by omega)
        · rw [posSucc sr dr (k - 1), posSucc sc dc (k - 1)]
          have hkk : k - 1 + 1 = k := by omega
          rw [hkk]
          exact hcur
        · intro i hi1 hi2
          rw [posSucc sr dr i, posSucc sc dc i]
          exact hmin (i + 1) (by omega) (by omega)
      rw [hrec]
      show some (some (k - 1 + 1)) = some (some k)
      rw [Nat.sub_add_cancel (by omega)]

/-- Completeness of the scan loop from the start: if the first stepped cell is the
opponent colour and the k-th cell is the first `cur` cell on an in-bounds path,
the direction ignites at k. -/
lemma seekAux_false_complete (b : Board) (cur tgt : CellState) (dr dc : Int)
    (hct : cur ≠ tgt) :
    ∀ (fuel : Nat) (sr sc : Int) (k : Nat),
      2 ≤ k → k ≤ fuel →
      (∀ i : Nat, 1 ≤ i → i ≤ k → inBp (sr + (i : Int) * dr) (sc + (i : Int) * dc)) →
      cellAt b (sr + dr) (sc + dc) = tgt →
      cellAt b (sr + (k : Int) * dr) (sc + (k : Int) * dc) = cur →
      (∀ i : Nat, 1 ≤ i → i < k →
        cellAt b (sr + (i : Int) * dr) (sc + (i : Int) * dc) ≠ cur) →
      seekAux b cur tgt dr dc fuel sr sc false = some (some k) := by
  intro fuel
  cases fuel with
  | zero => intro sr sc k hk1 hk0 _ _ _ _; omega
  | succ n =>
    intro sr sc k hk2 hkf hbounds ht hcur hmin
    simp only [seekAux]
    have hb : inBp (sr + dr) (sc + dc) := by
      have := hbounds 1 (by omega) (by omega)
      simpa using this
    rw [if_pos hb, if_neg (by simp [ht])]
    have hc : cellAt b (sr + dr) (sc + dc) ≠ cur := by
      rw [ht]; exact fun e => hct e.symm
    rw [if_neg hc]
    have hrec : seekAux b cur tgt dr dc n (sr + dr) (sc + dc) true = some (some (k - 1)) := by
      apply seekAux_true_complete
      · omega
      · omega
      · intro i hi1 hi2
        rw [posSucc sr dr i, posSucc sc dc i]
        exact hbounds (i + 1) (by omega) (by omega)
      · rw [posSucc sr dr (k - 1), posSucc sc dc (k - 1)]
        have hkk : k - 1 + 1 = k := by omega
        rw [hkk]
        exact hcur
      · intro i hi1 hi2
        rw [posSucc sr dr i, posSucc sc dc i]
        exact hmin (i + 1) (by omega) (by omega)
    rw [hrec]
    show some (some (k - 1 + 1)) = some (some k)
    rw [Nat.sub_add_cancel (by omega)]

/-- Termination of the scan loop: from an in-bounds cell, a direction from the
source's direction set exits the board after at most 8 steps, so fuel 8 suffices
and the loop never diverges. -/
lemma seekAux_total (b : Board) (cur tgt : CellState) (dr dc : Int)
    (hd : (dr, dc) ∈ dirList) :
    ∀ (fuel : Nat) (sr sc : Int) (lockOn : Bool),
      inBp sr sc →
      (if dr = 1 then 8 - sr else if dr = -1 then sr + 1
        else if dc = 1 then 8 - sc else sc + 1) ≤ (fuel : Int) →
      (seekAux b cur tgt dr dc fuel sr sc lockOn).isSome = true := by
  have hd' : (dr = -1 ∧ dc = -1) ∨ (dr = -1 ∧ dc = 0) ∨ (dr = -1 ∧ dc = 1) ∨
      (dr = 0 ∧ dc = -1) ∨ (dr = 0 ∧ dc = 1) ∨ (dr = 1 ∧ dc = -1) ∨
      (dr = 1 ∧ dc = 0) ∨ (dr = 1 ∧ dc = 1) := by
    simpa [dirList, Prod.ext_iff] using hd
  intro fuel
  induction fuel with
  | zero =>
    intro sr sc lockOn hin hmu
    exfalso
    rcases hd' with h | h | h | h | h | h | h | h <;> obtain ⟨rfl, rfl⟩ := h <;>
      (norm_num at hmu; omega)
  | succ n ih =>
    intro sr sc lockOn hin hmu
    simp only [seekAux]
    by_cases hb : inBp (sr + dr) (sc + dc)
    · rw [if_pos hb]
      by_cases habandon : lockOn = false ∧ cellAt b (sr + dr) (sc + dc) ≠ tgt
      · rw [if_pos habandon]; rfl
      · rw [if_neg habandon]
        by_cases hc : cellAt b (sr + dr) (sc + dc) = cur
        · rw [if_pos hc]; rfl
        · rw [if_neg hc]
          have hmu2 : (if dr = 1 then 8 - (sr + dr) else if dr = -1 then (sr + dr) + 1
              else if dc = 1 then 8 - (sc + dc) else (sc + dc) + 1) ≤ (n : Int) := by
            rcases hd' with h | h | h | h | h | h | h | h <;> obtain ⟨rfl, rfl⟩ := h <;>
              (norm_num at hmu ⊢; omega)
          have hrec := ih (sr + dr) (sc + dc) true hb hmu2
          cases hx : seekAux b cur tgt dr dc n (sr + dr) (sc + dc) true with
          | none => rw [hx] at hrec; simp at hrec
          | some o => cases o <;> rfl
    · rw [if_neg hb]; rfl

/-- The scan from any in-bounds start has a definite outcome with the fuel used
by the model. -/
lemma seek_total (b : Board) (cur tgt : CellState) (r c dr dc : Int)
    (hd : (dr, dc) ∈ dirList) :
    (seek b cur tgt r c dr dc).isSome = true := by
  rw [seek]
  by_cases hin : inBp r c
  · rw [if_pos hin]
    apply seekAux_total b cur tgt dr dc hd 8 r c false hin
    have hd' : (dr = -1 ∧ dc = -1) ∨ (dr = -1 ∧ dc = 0) ∨ (dr = -1 ∧ dc = 1) ∨
        (dr = 0 ∧ dc = -1) ∨ (dr = 0 ∧ dc = 1) ∨ (dr = 1 ∧ dc = -1) ∨
        (dr = 1 ∧ dc = 0) ∨ (dr = 1 ∧ dc = 1) := by
      simpa [dirList, Prod.ext_iff] using hd
    rcases hd' with h | h | h | h | h | h | h | h <;> obtain ⟨rfl, rfl⟩ := h <;>
      (norm_num; omega)
  · rw [if_neg hin]; rfl

/-- Soundness of a full `seek`: ignition at k characterises the visited prefix. -/
lemma seek_sound (b : Board) (cur tgt : CellState) (r c dr dc : Int) (k : Nat)
    (hct : cur ≠ tgt) (h : seek b cur tgt r c dr dc = some (some k)) :
    inBp r c ∧ 2 ≤ k ∧ k ≤ 8 ∧
    (∀ i : Nat, 1 ≤ i → i ≤ k → inBp (r + (i : Int) * dr) (c + (i : Int) * dc)) ∧
    cellAt b (r + dr) (c + dc) = tgt ∧
    cellAt b (r + (k : Int) * dr) (c + (k : Int) * dc) = cur ∧
    (∀ i : Nat, 1 ≤ i → i < k →
      cellAt b (r + (i : Int) * dr) (c + (i : Int) * dc) ≠ cur) := by
  rw [seek] at h
  by_cases hin : inBp r c
  · rw [if_pos hin] at h
    obtain ⟨h1, h2, h3, h4, h5, h6⟩ := seekAux_false_sound b cur tgt dr dc hct 8 r c k h
    exact ⟨hin, h1, h2, h3, h4, h5, h6⟩
  · rw [if_neg hin] at h
    simp at h

/-- Completeness of a full `seek` from the characterisation. -/
lemma seek_complete (b : Board) (cur tgt : CellState) (r c dr dc : Int) (k : Nat)
    (hct : cur ≠ tgt) (hin : inBp r c) (hk2 : 2 ≤ k) (hk8 : k ≤ 8)
    (hbounds : ∀ i : Nat, 1 ≤ i → i ≤ k → inBp (r + (i : Int) * dr) (c + (i : Int) * dc))
    (ht : cellAt b (r + dr) (c + dc) = tgt)
    (hcur : cellAt b (r + (k : Int) * dr) (c + (k : Int) * dc) = cur)
    (hmin : ∀ i : Nat, 1 ≤ i → i < k →
      cellAt b (r + (i : Int) * dr) (c + (i : Int) * dc) ≠ cur) :
    seek b cur tgt r c dr dc = some (some k) := by
  rw [seek, if_pos hin]
  exact seekAux_false_complete b cur tgt dr dc hct 8 r c k hk2 (by omega) hbounds ht hcur hmin

/-- A ray cell with positive index never coincides with the ray's origin. -/
lemma posNeZero (tr tc dr dc : Int) (hd : (dr, dc) ∈ dirList) (i : Nat) (hi : 1 ≤ i) :
    ¬(tr + (i : Int) * dr = tr ∧ tc + (i : Int) * dc = tc) := by
  have hd' : (dr = -1 ∧ dc = -1) ∨ (dr = -1 ∧ dc = 0) ∨ (dr = -1 ∧ dc = 1) ∨
      (dr = 0 ∧ dc = -1) ∨ (dr = 0 ∧ dc = 1) ∨ (dr = 1 ∧ dc = -1) ∨
      (dr = 1 ∧ dc = 0) ∨ (dr = 1 ∧ dc = 1) := by
    simpa [dirList, Prod.ext_iff] using hd
  rintro ⟨e1, e2⟩
  rcases hd' with h | h | h | h | h | h | h | h <;> obtain ⟨rfl, rfl⟩ := h <;> omega

/-- Distinct directions have disjoint rays (away from the shared origin). -/
lemma ray_disjoint (d1 d2 e1 e2 : Int) (hd : (d1, d2) ∈ dirList) (hd' : (e1, e2) ∈ dirList)
    (hne : (d1, d2) ≠ (e1, e2)) (i j : Nat) (hi : 1 ≤ i) (hj : 1 ≤ j) (r c : Int)
    (hx : r + (i : Int) * d1 = r + (j : Int) * e1)
    (hy : c + (i : Int) * d2 = c + (j : Int) * e2) : False := by
  have h1 : (i : Int) * d1 = (j : Int) * e1 := add_left_cancel hx
  have h2 : (i : Int) * d2 = (j : Int) * e2 := add_left_cancel hy
  have hdc : (d1 = -1 ∧ d2 = -1) ∨ (d1 = -1 ∧ d2 = 0) ∨ (d1 = -1 ∧ d2 = 1) ∨
      (d1 = 0 ∧ d2 = -1) ∨ (d1 = 0 ∧ d2 = 1) ∨ (d1 = 1 ∧ d2 = -1) ∨
      (d1 = 1 ∧ d2 = 0) ∨ (d1 = 1 ∧ d2 = 1) := by
    simpa [dirList, Prod.ext_iff] using hd
  have hec : (e1 = -1 ∧ e2 = -1) ∨ (e1 = -1 ∧ e2 = 0) ∨ (e1 = -1 ∧ e2 = 1) ∨
      (e1 = 0 ∧ e2 = -1) ∨ (e1 = 0 ∧ e2 = 1) ∨ (e1 = 1 ∧ e2 = -1) ∨
      (e1 = 1 ∧ e2 = 0) ∨ (e1 = 1 ∧ e2 = 1) := by
    simpa [dirList, Prod.ext_iff] using hd'
  rcases hdc with h | h | h | h | h | h | h | h <;> obtain ⟨rfl, rfl⟩ := h <;>
    rcases hec with h2 | h2 | h2 | h2 | h2 | h2 | h2 | h2 <;> obtain ⟨rfl, rfl⟩ := h2 <;>
    first
      | exact hne rfl
      | omega

/-- The scan only reads cells on its own ray: boards agreeing there scan alike. -/
lemma seekAux_frame (b1 b2 : Board) (cur tgt : CellState) (dr dc : Int) :
    ∀ (fuel : Nat) (sr sc : Int) (lockOn : Bool),
      (∀ i : Nat, 1 ≤ i → i ≤ fuel →
        cellAt b1 (sr + (i : Int) * dr) (sc + (i : Int) * dc) =
          cellAt b2 (sr + (i : Int) * dr) (sc + (i : Int) * dc)) →
      seekAux b1 cur tgt dr dc fuel sr sc lockOn = seekAux b2 cur tgt dr dc fuel sr sc lockOn := by
  intro fuel
  induction fuel with
  | zero => intro sr sc lockOn _; rfl
  | succ n ih =>
    intro sr sc lockOn hagree
    have h1 : cellAt b1 (sr + dr) (sc + dc) = cellAt b2 (sr + dr) (sc + dc) := by
      have := hagree 1 (by omega) (by omega)
      simpa using this
    have hshift : ∀ i : Nat, 1 ≤ i → i ≤ n →
        cellAt b1 (sr + dr + (i : Int) * dr) (sc + dc + (i : Int) * dc) =
          cellAt b2 (sr + dr + (i : Int) * dr) (sc + dc + (i : Int) * dc) := by
      intro i hi1 hi2
      rw [posSucc sr dr i, posSucc sc dc i]
      exact hagree (i + 1) (by omega) (by omega)
    have hrec := ih (sr + dr) (sc + dc) true hshift
    simp only [seekAux, h1, hrec]

/-- `seek` only reads cells on its own ray. -/
lemma seek_frame (b1 b2 : Board) (cur tgt : CellState) (r c dr dc : Int)
    (hagree : ∀ i : Nat, 1 ≤ i → i ≤ 8 →
      cellAt b1 (r + (i : Int) * dr) (c + (i : Int) * dc) =
        cellAt b2 (r + (i : Int) * dr) (c + (i : Int) * dc)) :
    seek b1 cur tgt r c dr dc = seek b2 cur tgt r c dr dc := by
  rw [seek, seek]
  by_cases hin : inBp r c
  · rw [if_pos hin, if_pos hin]
    exact seekAux_frame b1 b2 cur tgt dr dc 8 r c false hagree
  · rw [if_neg hin, if_neg hin]

/-- The flip loop, run from the k-th ray cell: it terminates at the origin after
exactly k iterations, painting precisely the ray cells of index 1..k. -/
lemma flipBackAux_spec (cur : CellState) (tr tc dr dc : Int) (hd : (dr, dc) ∈ dirList) :
    ∀ (k : Nat), ∀ (fuel : Nat) (b : Board), k ≤ fuel →
      (∀ i : Nat, 1 ≤ i → i ≤ k → inBp (tr + (i : Int) * dr) (tc + (i : Int) * dc)) →
      ∃ b2,
        flipBackAux cur tr tc dr dc fuel (tr + (k : Int) * dr) (tc + (k : Int) * dc) b =
          some b2 ∧
        ∀ x y : Int,
          ((∃ i : Nat, 1 ≤ i ∧ i ≤ k ∧ x = tr + (i : Int) * dr ∧ y = tc + (i : Int) * dc) →
            cellAt b2 x y = cur) ∧
          (¬(∃ i : Nat, 1 ≤ i ∧ i ≤ k ∧ x = tr + (i : Int) * dr ∧ y = tc + (i : Int) * dc) →
            cellAt b2 x y = cellAt b x y) := by
  intro k
  induction k with
  | zero =>
    intro fuel b _ _
    refine ⟨b, ?_, ?_⟩
    · have e0r : tr + ((0 : Nat) : Int) * dr = tr := by push_cast; ring
      have e0c : tc + ((0 : Nat) : Int) * dc = tc := by push_cast; ring
      rw [e0r, e0c]
      cases fuel <;> simp [flipBackAux]
    · intro x y
      constructor
      · rintro ⟨i, hi1, hi2, _, _⟩; omega
      · intro _; rfl
  | succ k ih =>
    intro fuel b hkf hbounds
    cases fuel with
    | zero => omega
    | succ m =>
      have hne : ¬(tr + ((k + 1 : Nat) : Int) * dr = tr ∧
          tc + ((k + 1 : Nat) : Int) * dc = tc) :=
        posNeZero tr tc dr dc hd (k + 1) (by omega)
      have hinpos : inBp (tr + ((k + 1 : Nat) : Int) * dr) (tc + ((k + 1 : Nat) : Int) * dc) :=
        hbounds (k + 1) (by omega) (by omega)
      obtain ⟨b1, hb1eq⟩ : ∃ b1,
          updateCellI b (tr + ((k + 1 : Nat) : Int) * dr) (tc + ((k + 1 : Nat) : Int) * dc) cur =
            some b1 := by
        rw [updateCellI, dif_pos hinpos]
        exact ⟨_, rfl⟩
      have hb1 := cellAt_updateCellI b b1 cur hinpos hb1eq
      have estepr : tr + ((k + 1 : Nat) : Int) * dr - dr = tr + (k : Int) * dr := by
        push_cast; ring
      have estepc : tc + ((k + 1 : Nat) : Int) * dc - dc = tc + (k : Int) * dc := by
        push_cast; ring
      have hrun : flipBackAux cur tr tc dr dc (m + 1)
            (tr + ((k + 1 : Nat) : Int) * dr) (tc + ((k + 1 : Nat) : Int) * dc) b =
          flipBackAux cur tr tc dr dc m (tr + (k : Int) * dr) (tc + (k : Int) * dc) b1 := by
        simp only [flipBackAux]
        rw [if_neg hne, hb1eq, estepr, estepc]
      obtain ⟨b2, heq, hdesc⟩ := ih m b1 (by omega)
        (fun i hi1 hi2 => hbounds i hi1 (by omega))
      refine ⟨b2, by rw [hrun]; exact heq, ?_⟩
      intro x y
      constructor
      · rintro ⟨i, hi1, hi2, hx, hy⟩
        by_cases hik : i ≤ k
        · exact (hdesc x y).1 ⟨i, hi1, hik, hx, hy⟩
        · have hik1 : i = k + 1 := by omega
          subst hik1
          by_cases hhit : ∃ i2 : Nat, 1 ≤ i2 ∧ i2 ≤ k ∧
              x = tr + (i2 : Int) * dr ∧ y = tc + (i2 : Int) * dc
          · exact (hdesc x y).1 hhit
          · rw [(hdesc x y).2 hhit, hb1 x y, if_pos ⟨hx, hy⟩]
      · intro hnone
        have hnk : ¬ ∃ i : Nat, 1 ≤ i ∧ i ≤ k ∧
            x = tr + (i : Int) * dr ∧ y = tc + (i : Int) * dc := by
          rintro ⟨i, h1, h2, hx, hy⟩
          exact hnone ⟨i, h1, by omega, hx, hy⟩
        rw [(hdesc x y).2 hnk, hb1 x y, if_neg ?_]
        rintro ⟨hx, hy⟩
        exact hnone ⟨k + 1, by omega, by omega, hx, hy⟩

/-- Inversion for `seekIdx`. -/
lemma seekIdx_eq_some (b : Board) (cur tgt : CellState) (r c : Int) (d : Int × Int) (k : Nat) :
    seekIdx b cur tgt r c d = some k ↔ seek b cur tgt r c d.1 d.2 = some (some k) := by
  rw [seekIdx]
  cases hseek : seek b cur tgt r c d.1 d.2 with
  | none => simp
  | some o => cases o <;> simp

lemma seekIdx_eq_none_of (b : Board) (cur tgt : CellState) (r c : Int) (d : Int × Int)
    (h : seek b cur tgt r c d.1 d.2 = some none) :
    seekIdx b cur tgt r c d = none := by
  rw [seekIdx, h]

lemma anyIg_cons (b0 : Board) (cur tgt : CellState) (r c : Int) (d : Int × Int)
    (ds : List (Int × Int)) :
    anyIg b0 cur tgt r c (d :: ds) =
      ((seekIdx b0 cur tgt r c d).isSome || anyIg b0 cur tgt r c ds) := by
  simp [anyIg, List.any_cons]

lemma flipHit_cons_none (b0 : Board) (cur tgt : CellState) (r c : Int) (d : Int × Int)
    (ds : List (Int × Int)) (x y : Int) (hidx : seekIdx b0 cur tgt r c d = none) :
    flipHit b0 cur tgt r c (d :: ds) x y = flipHit b0 cur tgt r c ds x y := by
  simp only [flipHit, List.any_cons]
  rw [hidx]
  simp

lemma flipHit_cons_some (b0 : Board) (cur tgt : CellState) (r c : Int) (d : Int × Int)
    (ds : List (Int × Int)) (x y : Int) (k : Nat) (hidx : seekIdx b0 cur tgt r c d = some k) :
    flipHit b0 cur tgt r c (d :: ds) x y =
      (@decide (∃ i ∈ Finset.Icc 1 k, x = r + (i : Int) * d.1 ∧ y = c + (i : Int) * d.2)
          Finset.decidableExistsAndFinset ||
        flipHit b0 cur tgt r c ds x y) := by
  simp only [flipHit, List.any_cons]
  rw [hidx]

/-- Master characterisation of the direction loop: processing any nodup sublist of
the direction set on a board that still agrees with the pre-move board b0 on the
unprocessed rays yields exactly the flips determined on b0, and the found flag is
the pre-board any-ignites flag. -/
lemma processDirs_spec (b0 : Board) (cur tgt : CellState) (hct : cur ≠ tgt) (r c : Int) :
    ∀ (ds : List (Int × Int)) (b : Board) (found : Bool),
      ds.Nodup → (∀ d ∈ ds, d ∈ dirList) →
      (∀ d ∈ ds, ∀ i : Nat, 1 ≤ i → i ≤ 8 →
        cellAt b (r + (i : Int) * d.1) (c + (i : Int) * d.2) =
          cellAt b0 (r + (i : Int) * d.1) (c + (i : Int) * d.2)) →
      ∃ B, processDirs cur tgt r c ds b found =
          some (B, (found || anyIg b0 cur tgt r c ds)) ∧
        ∀ x y : Int,
          (flipHit b0 cur tgt r c ds x y = true → cellAt B x y = cur) ∧
          (flipHit b0 cur tgt r c ds x y = false → cellAt B x y = cellAt b x y) := by
  intro ds
  induction ds with
  | nil =>
    intro b found _ _ _
    refine ⟨b, ?_, ?_⟩
    · simp [processDirs, anyIg]
    · intro x y
      constructor
      · intro h; simp [flipHit] at h
      · intro _; rfl
  | cons d ds ih =>
    intro b found hnodup hsub hray
    obtain ⟨hdnotin, hnodup2⟩ := List.nodup_cons.mp hnodup
    have hd : d ∈ dirList := hsub d (List.mem_cons_self d ds)
    have hseekeq : seek b cur tgt r c d.1 d.2 = seek b0 cur tgt r c d.1 d.2 :=
      seek_frame b b0 cur tgt r c d.1 d.2 (hray d (List.mem_cons_self d ds))
    have htot := seek_total b0 cur tgt r c d.1 d.2 hd
    cases hs0 : seek b0 cur tgt r c d.1 d.2 with
    | none => rw [hs0] at htot; simp at htot
    | some o =>
      cases o with
      | none =>
        have hidx : seekIdx b0 cur tgt r c d = none := seekIdx_eq_none_of _ _ _ _ _ _ hs0
        obtain ⟨B, hB, hdesc⟩ := ih b found hnodup2
          (fun e he => hsub e (List.mem_cons_of_mem d he))
          (fun e he => hray e (List.mem_cons_of_mem d he))
        refine ⟨B, ?_, ?_⟩
        · simp only [processDirs]
          rw [hseekeq, hs0, hB, anyIg_cons, hidx]
          simp
        · intro x y
          rw [flipHit_cons_none b0 cur tgt r c d ds x y hidx]
          exact hdesc x y
      | some k =>
        have hidx : seekIdx b0 cur tgt r c d = some k := by
          rw [seekIdx_eq_some]; exact hs0
        have hsb : seek b cur tgt r c d.1 d.2 = some (some k) := by
          rw [hseekeq]; exact hs0
        obtain ⟨_, hk2, hk8, hbounds, ht1, hcur, hmin⟩ :=
          seek_sound b cur tgt r c d.1 d.2 k hct hsb
        obtain ⟨b1, hflip, hflipdesc⟩ :=
          flipBackAux_spec cur r c d.1 d.2 hd k 8 b hk8 hbounds
        have hray1 : ∀ e ∈ ds, ∀ i : Nat, 1 ≤ i → i ≤ 8 →
            cellAt b1 (r + (i : Int) * e.1) (c + (i : Int) * e.2) =
              cellAt b0 (r + (i : Int) * e.1) (c + (i : Int) * e.2) := by
          intro e he i hi1 hi8
          have hed : e ≠ d := fun hh => hdnotin (hh ▸ he)
          have hnohit : ¬ ∃ i2 : Nat, 1 ≤ i2 ∧ i2 ≤ k ∧
              r + (i : Int) * e.1 = r + (i2 : Int) * d.1 ∧
              c + (i : Int) * e.2 = c + (i2 : Int) * d.2 := by
            rintro ⟨i2, h1, h2, hx, hy⟩
            refine ray_disjoint e.1 e.2 d.1 d.2 (hsub e (List.mem_cons_of_mem d he)) hd
              ?_ i i2 hi1 h1 r c hx hy
            intro hh
            apply hed
            rw [← Prod.mk.eta (p := e), ← Prod.mk.eta (p := d)]
            exact hh
          rw [(hflipdesc _ _).2 hnohit]
          exact hray e (List.mem_cons_of_mem d he) i hi1 hi8
        obtain ⟨B, hB, hdesc⟩ := ih b1 true hnodup2
          (fun e he => hsub e (List.mem_cons_of_mem d he)) hray1
        refine ⟨B, ?_, ?_⟩
        · simp only [processDirs]
          rw [hseekeq, hs0]
          simp only [hflip]
          rw [hB, anyIg_cons, hidx]
          simp
        · intro x y
          constructor
          · intro hhit
            by_cases hds : flipHit b0 cur tgt r c ds x y = true
            · exact (hdesc x y).1 hds
            · have hds2 : flipHit b0 cur tgt r c ds x y = false :=
                Bool.eq_false_iff.mpr hds
              rw [flipHit_cons_some b0 cur tgt r c d ds x y k hidx, hds2] at hhit
              simp only [Bool.or_false, decide_eq_true_eq] at hhit
              obtain ⟨i, hmem, hx, hy⟩ := hhit
              obtain ⟨hm1, hm2⟩ := Finset.mem_Icc.mp hmem
              rw [(hdesc x y).2 hds2]
              exact (hflipdesc x y).1 ⟨i, hm1, hm2, hx, hy⟩
          · intro hfalse
            rw [flipHit_cons_some b0 cur tgt r c d ds x y k hidx] at hfalse
            simp only [Bool.or_eq_false_iff, decide_eq_false_iff_not] at hfalse
            obtain ⟨hhead, htail⟩ := hfalse
            rw [(hdesc x y).2 htail]
            refine (hflipdesc x y).2 ?_
            rintro ⟨i, h1, h2, hx, hy⟩
            exact hhead ⟨i, Finset.mem_Icc.mpr ⟨h1, h2⟩, hx, hy⟩

lemma colorOf_ne_oppColorOf (t : WhiteOrBlack) : colorOf t ≠ oppColorOf t := by
  cases t <;> simp [colorOf, oppColorOf]

/-- The direction loop of handle_click, run on the whole direction list from the
pre-move board, realises exactly the pre-board-determined flips. -/
lemma processDirs_main (gs : GameState) (row col : Nat) :
    ∃ B, processDirs (colorOf gs.current_turn) (oppColorOf gs.current_turn)
          (row : Int) (col : Int) dirList gs.board false =
        some (B, anyIg gs.board (colorOf gs.current_turn) (oppColorOf gs.current_turn)
          (row : Int) (col : Int) dirList) ∧
      ∀ x y : Int,
        (flipHit gs.board (colorOf gs.current_turn) (oppColorOf gs.current_turn)
            (row : Int) (col : Int) dirList x y = true →
          cellAt B x y = colorOf gs.current_turn) ∧
        (flipHit gs.board (colorOf gs.current_turn) (oppColorOf gs.current_turn)
            (row : Int) (col : Int) dirList x y = false →
          cellAt B x y = cellAt gs.board x y) := by
  obtain ⟨B, hB, hdesc⟩ := processDirs_spec gs.board (colorOf gs.current_turn)
    (oppColorOf gs.current_turn) (colorOf_ne_oppColorOf gs.current_turn)
    (row : Int) (col : Int) dirList gs.board false
    (by decide) (fun d h => h) (fun d _ i _ _ => rfl)
  refine ⟨B, ?_, hdesc⟩
  simpa using hB

lemma handle_click_oob (gs : GameState) (row col : Nat) (h : ¬(row < 8 ∧ col < 8)) :
    handle_click gs row col = none := by
  rw [handle_click, dif_neg h]

lemma handle_click_occupied (gs : GameState) (row col : Nat) (h1 : row < 8) (h2 : col < 8)
    (hocc : gs.board ⟨row, h1⟩ ⟨col, h2⟩ ≠ CellState.Empty) :
    handle_click gs row col = some (gs, false) := by
  rw [handle_click, dif_pos (And.intro h1 h2), if_pos hocc]

lemma handle_click_empty (gs : GameState) (row col : Nat) (h1 : row < 8) (h2 : col < 8)
    (hEmpty : gs.board ⟨row, h1⟩ ⟨col, h2⟩ = CellState.Empty) :
    handle_click gs row col =
      match processDirs (colorOf gs.current_turn) (oppColorOf gs.current_turn)
          (row : Int) (col : Int) dirList gs.board false with
      | none => none
      | some (b, found) =>
        if found then
          some ({ board := updateCell b ⟨row, h1⟩ ⟨col, h2⟩ (colorOf gs.current_turn),
                  current_turn := toggleTurn gs.current_turn,
                  white_score := gs.white_score,
                  black_score := gs.black_score }, true)
        else some ({ gs with board := b }, false) := by
  rw [handle_click, dif_pos (And.intro h1 h2), if_neg (by simp [hEmpty])]

/-- Packaged form of handle_click on an in-bounds Empty target. -/
lemma handle_click_main (gs : GameState) (row col : Nat) (h1 : row < 8) (h2 : col < 8)
    (hEmpty : gs.board ⟨row, h1⟩ ⟨col, h2⟩ = CellState.Empty) :
    ∃ B,
      handle_click gs row col =
        (if anyIg gs.board (colorOf gs.current_turn) (oppColorOf gs.current_turn)
            (row : Int) (col : Int) dirList = true
         then some ({ board := updateCell B ⟨row, h1⟩ ⟨col, h2⟩ (colorOf gs.current_turn),
                      current_turn := toggleTurn gs.current_turn,
                      white_score := gs.white_score,
                      black_score := gs.black_score }, true)
         else some ({ gs with board := B }, false)) ∧
      ∀ x y : Int,
        (flipHit gs.board (colorOf gs.current_turn) (oppColorOf gs.current_turn)
            (row : Int) (col : Int) dirList x y = true →
          cellAt B x y = colorOf gs.current_turn) ∧
        (flipHit gs.board (colorOf gs.current_turn) (oppColorOf gs.current_turn)
            (row : Int) (col : Int) dirList x y = false →
          cellAt B x y = cellAt gs.board x y) := by
  obtain ⟨B, hB, hdesc⟩ := processDirs_main gs row col
  refine ⟨B, ?_, hdesc⟩
  rw [handle_click_empty gs row col h1 h2 hEmpty, hB]

lemma flipHit_false_of_anyIg_false (b0 : Board) (cur tgt : CellState) (r c : Int)
    (ds : List (Int × Int)) (hig : anyIg b0 cur tgt r c ds = false) (x y : Int) :
    flipHit b0 cur tgt r c ds x y = false := by
  simp only [anyIg, List.any_eq_false] at hig
  simp only [flipHit, List.any_eq_false]
  intro d hd
  have hthis := hig d hd
  cases hidx : seekIdx b0 cur tgt r c d with
  | none => simp
  | some k => rw [hidx] at hthis; simp at hthis

lemma board_ext_of_cellAt (b1 b2 : Board) (h : ∀ x y : Int, cellAt b1 x y = cellAt b2 x y) :
    b1 = b2 := by
  funext i j
  have hthis := h ((i : Nat) : Int) ((j : Nat) : Int)
  rw [cellAt_coe b1 (i : Nat) (j : Nat) i.isLt j.isLt,
      cellAt_coe b2 (i : Nat) (j : Nat) i.isLt j.isLt] at hthis
  simpa using hthis

lemma cellAt_updateCell_nat (b : Board) (row col : Nat) (h1 : row < 8) (h2 : col < 8)
    (v : CellState) (x y : Int) :
    cellAt (updateCell b ⟨row, h1⟩ ⟨col, h2⟩ v) x y =
      if x = (row : Int) ∧ y = (col : Int) then v else cellAt b x y := by
  rw [cellAt_updateCell]

lemma scoreFold (l : List CellState) (w bk : Nat) :
    l.foldl scoreStep (w, bk) = (w + l.count CellState.White, bk + l.count CellState.Black) := by
  induction l generalizing w bk with
  | nil => simp
  | cons hd t ih =>
    cases hd <;> simp [scoreStep, ih, List.count_cons, beq_iff_eq] <;> omega

lemma count_three (l : List CellState) :
    l.count CellState.White + l.count CellState.Black + l.count CellState.Empty = l.length := by
  induction l with
  | nil => simp
  | cons hd t ih => cases hd <;> simp [List.count_cons, beq_iff_eq] <;> omega

lemma boardCells_length (b : Board) : (boardCells b).length = 64 := rfl

lemma overFold (l : List CellState) (ew eb ff : Bool) :
    l.foldl overStep (ew, eb, ff) =
      (ew || l.any (fun x => x == CellState.White),
       eb || l.any (fun x => x == CellState.Black),
       ff && !(l.any (fun x => x == CellState.Empty))) := by
  induction l generalizing ew eb ff with
  | nil => simp
  | cons hd t ih =>
    cases hd <;> (simp [overStep, ih, List.any_cons]; exact ⟨rfl, rfl⟩)

lemma any_beq_eq (l : List CellState) (a : CellState) :
    (l.any fun x => x == a) = true ↔ a ∈ l := by
  rw [List.any_eq_true]
  constructor
  · rintro ⟨x, hx, hbeq⟩
    rw [beq_iff_eq] at hbeq
    rw [← hbeq]
    exact hx
  · intro h
    exact ⟨a, h, beq_self_eq_true a⟩

lemma check_game_over_eq (gs : GameState) :
    check_game_over gs =
      (!((boardCells gs.board).any (fun x => x == CellState.White)) ||
       !((boardCells gs.board).any (fun x => x == CellState.Black)) ||
       !((boardCells gs.board).any (fun x => x == CellState.Empty))) := by
  rw [check_game_over, gameOverFlags, overFold]
  simp

/-- Fuel 8 always suffices for the scan from an in-bounds start. -/
lemma seekAux_total8 (b : Board) (cur tgt : CellState) (dr dc : Int)
    (hd : (dr, dc) ∈ dirList) (sr sc : Int) (hin : inBp sr sc) (lockOn : Bool) :
    (seekAux b cur tgt dr dc 8 sr sc lockOn).isSome = true := by
  apply seekAux_total b cur tgt dr dc hd 8 sr sc lockOn hin
  have hd' : (dr = -1 ∧ dc = -1) ∨ (dr = -1 ∧ dc = 0) ∨ (dr = -1 ∧ dc = 1) ∨
      (dr = 0 ∧ dc = -1) ∨ (dr = 0 ∧ dc = 1) ∨ (dr = 1 ∧ dc = -1) ∨
      (dr = 1 ∧ dc = 0) ∨ (dr = 1 ∧ dc = 1) := by
    simpa [dirList, Prod.ext_iff] using hd
  rcases hd' with h | h | h | h | h | h | h | h <;> obtain ⟨rfl, rfl⟩ := h <;>
    (norm_num; omega)

/-- Claim C6: after reset_game_state runs on any GameState, exactly 4 cells are
occupied — (3,3) and (4,4) hold White (First), (3,4) and (4,3) hold Black
(Second) — all other 60 cells are Empty, both scores equal 2, and the active
player is White (First); unconditionally in the prior state. -/
theorem claim6_reset_initializes (gs : GameState) :
    (reset_game_state gs).board 3 3 = CellState.White ∧
    (reset_game_state gs).board 4 4 = CellState.White ∧
    (reset_game_state gs).board 3 4 = CellState.Black ∧
    (reset_game_state gs).board 4 3 = CellState.Black ∧
    (∀ i j : Fin 8,
      ¬((i = 3 ∧ j = 3) ∨ (i = 4 ∧ j = 4) ∨ (i = 3 ∧ j = 4) ∨ (i = 4 ∧ j = 3)) →
      (reset_game_state gs).board i j = CellState.Empty) ∧
    specCount (reset_game_state gs).board CellState.White = 2 ∧
    specCount (reset_game_state gs).board CellState.Black = 2 ∧
    specCount (reset_game_state gs).board CellState.Empty = 60 ∧
    (reset_game_state gs).white_score = 2 ∧
    (reset_game_state gs).black_score = 2 ∧
    (reset_game_state gs).current_turn = WhiteOrBlack.White := by
  have hrw : reset_game_state gs = initState := rfl
  rw [hrw]
  decide

/-- Claim C7: after calculate_score, the white score is the number of White
cells, the black score the number of Black cells, the two scores plus the
number of Empty cells is 64, and the recomputation is idempotent. -/
theorem claim7_score_consistency (gs : GameState) :
    (calculate_score gs).white_score = specCount gs.board CellState.White ∧
    (calculate_score gs).black_score = specCount gs.board CellState.Black ∧
    (calculate_score gs).white_score + (calculate_score gs).black_score +
      specCount gs.board CellState.Empty = 64 ∧
    calculate_score (calculate_score gs) = calculate_score gs := by
  have hw : (calcScores gs.board).1 = specCount gs.board CellState.White := by
    rw [calcScores, scoreFold]
    simp [specCount]
  have hb : (calcScores gs.board).2 = specCount gs.board CellState.Black := by
    rw [calcScores, scoreFold]
    simp [specCount]
  refine ⟨hw, hb, ?_, rfl⟩
  rw [show (calculate_score gs).white_score = (calcScores gs.board).1 from rfl, hw,
      show (calculate_score gs).black_score = (calcScores gs.board).2 from rfl, hb]
  have hthree := count_three (boardCells gs.board)
  rw [boardCells_length] at hthree
  simpa [specCount] using hthree

/-- Claim C8: the game-over condition computed by check_game_over is true
exactly when the board has zero White cells, zero Black cells, or zero Empty
cells, and false otherwise. -/
theorem claim8_game_over_iff (gs : GameState) :
    check_game_over gs = true ↔
      (specCount gs.board CellState.White = 0 ∨ specCount gs.board CellState.Black = 0 ∨
        specCount gs.board CellState.Empty = 0) := by
  have key : ∀ a : CellState,
      (((boardCells gs.board).any fun x => x == a) = false) ↔ specCount gs.board a = 0 := by
    intro a
    rw [specCount, List.count_eq_zero, ← any_beq_eq (boardCells gs.board) a]
    simp
    constructor
    · intro h hmem
      exact h a hmem rfl
    · intro h x hx hxa
      rw [hxa] at hx
      exact h hx
  rw [check_game_over_eq]
  simp only [Bool.or_eq_true, Bool.not_eq_true']
  rw [key CellState.White, key CellState.Black, key CellState.Empty]
  exact or_assoc

/-- Claim C5: from the initial position (White at (3,3),(4,4), Black at
(3,4),(4,3), White to move), a click at (2,4) succeeds: direction (1,0)
ignites after 2 steps via (3,4)=Black then (4,4)=White, (3,4) is flipped,
(2,4) and (3,4) end up White, the recomputed score is (4,1) and the turn
passes to Black; a click at (2,3) is rejected with no state change. -/
theorem claim5_concrete_scenario :
    handle_click initState 2 4 = some (afterFirstMove, true) ∧
    seekIdx initState.board CellState.White CellState.Black 2 4 (1, 0) = some 2 ∧
    initState.board 3 4 = CellState.Black ∧
    initState.board 4 4 = CellState.White ∧
    afterFirstMove.board 3 4 = CellState.White ∧
    afterFirstMove.board 2 4 = CellState.White ∧
    (calculate_score afterFirstMove).white_score = 4 ∧
    (calculate_score afterFirstMove).black_score = 1 ∧
    afterFirstMove.current_turn = WhiteOrBlack.Black ∧
    handle_click initState 2 3 = some (initState, false) := by
  decide

/-- Claim C9 (amended): an out-of-range coordinate does not produce the no-op
"did not move" signal; the unguarded board index faults, modelled by `none`. -/
theorem claim9_out_of_range_faults (gs : GameState) (row col : Nat)
    (h : 8 ≤ row ∨ 8 ≤ col) :
    handle_click gs row col = none :=
  handle_click_oob gs row col (by omega)

theorem claim9_witness : handle_click initState 8 0 = none :=
  claim9_out_of_range_faults initState 8 0 (Or.inl (by omega))

/-- Claim C9 counterexample: at (8,0) the handler does not return the no-op
signal `some (state, false)`; it reaches the out-of-bounds board index,
modelled by `none`. -/
theorem claim9_counterexample :
    handle_click initState 8 0 = none ∧
    ¬ ∃ p : GameState × Bool, handle_click initState 8 0 = some p := by
  have h0 : handle_click initState 8 0 = none := by decide
  refine ⟨h0, ?_⟩
  rintro ⟨p, hp⟩
  rw [h0] at hp
  exact Option.noConfusion hp

/-- Claim C3: if the move resolution rejects the move (occupied target or no
igniting direction), the entire GameState is unchanged. -/
theorem claim3_no_mutation_on_reject (gs gs2 : GameState) (row col : Nat)
    (h1 : row < 8) (h2 : col < 8)
    (hrej : handle_click gs row col = some (gs2, false)) : gs2 = gs := by
  by_cases hocc : gs.board ⟨row, h1⟩ ⟨col, h2⟩ = CellState.Empty
  · obtain ⟨B, hmain, hdesc⟩ := handle_click_main gs row col h1 h2 hocc
    rw [hmain] at hrej
    by_cases hig : anyIg gs.board (colorOf gs.current_turn) (oppColorOf gs.current_turn)
        (row : Int) (col : Int) dirList = true
    · rw [if_pos hig] at hrej
      have hsnd := congrArg Prod.snd (Option.some.inj hrej)
      simp at hsnd
    · rw [if_neg hig] at hrej
      simp only [Option.some.injEq, Prod.mk.injEq, and_true] at hrej
      have higf : anyIg gs.board (colorOf gs.current_turn) (oppColorOf gs.current_turn)
          (row : Int) (col : Int) dirList = false := by
        revert hig
        cases anyIg gs.board (colorOf gs.current_turn) (oppColorOf gs.current_turn)
          (row : Int) (col : Int) dirList <;> simp
      have hBgs : B = gs.board :=
        board_ext_of_cellAt B gs.board fun x y =>
          (hdesc x y).2 (flipHit_false_of_anyIg_false gs.board (colorOf gs.current_turn)
            (oppColorOf gs.current_turn) (row : Int) (col : Int) dirList higf x y)
      rw [← hrej, hBgs]
  · rw [handle_click_occupied gs row col h1 h2 hocc] at hrej
    exact (congrArg Prod.fst (Option.some.inj hrej)).symm

theorem claim3_witness :
    handle_click initState 2 3 = some (initState, false) ∧ initState = initState :=
  ⟨by decide,
    claim3_no_mutation_on_reject initState initState 2 3 (by omega) (by omega) (by decide)⟩

/-- Claim C4: on an in-bounds Empty target, the direction loop — which applies
each igniting direction's flips immediately — produces exactly the board
obtained by determining all igniting directions and their flip cells on the
unmutated pre-move board and applying them together; with the target placement
on success. -/
theorem claim4_order_independence (gs : GameState) (row col : Nat)
    (h1 : row < 8) (h2 : col < 8)
    (hEmpty : gs.board ⟨row, h1⟩ ⟨col, h2⟩ = CellState.Empty) :
    ∃ B, processDirs (colorOf gs.current_turn) (oppColorOf gs.current_turn)
          (row : Int) (col : Int) dirList gs.board false =
        some (B, anyIg gs.board (colorOf gs.current_turn) (oppColorOf gs.current_turn)
          (row : Int) (col : Int) dirList) ∧
      (∀ x y : Int,
        (flipHit gs.board (colorOf gs.current_turn) (oppColorOf gs.current_turn)
            (row : Int) (col : Int) dirList x y = true →
          cellAt B x y = colorOf gs.current_turn) ∧
        (flipHit gs.board (colorOf gs.current_turn) (oppColorOf gs.current_turn)
            (row : Int) (col : Int) dirList x y = false →
          cellAt B x y = cellAt gs.board x y)) ∧
      (anyIg gs.board (colorOf gs.current_turn) (oppColorOf gs.current_turn)
          (row : Int) (col : Int) dirList = true →
        handle_click gs row col =
          some ({ board := updateCell B ⟨row, h1⟩ ⟨col, h2⟩ (colorOf gs.current_turn),
                  current_turn := toggleTurn gs.current_turn,
                  white_score := gs.white_score,
                  black_score := gs.black_score }, true)) := by
  obtain ⟨B, hB, hdesc⟩ := processDirs_main gs row col
  refine ⟨B, hB, hdesc, ?_⟩
  intro hig
  rw [handle_click_empty gs row col h1 h2 hEmpty, hB, hig]
  rfl

theorem claim4_witness :
    ∃ B, processDirs (colorOf initState.current_turn) (oppColorOf initState.current_turn)
          ((2 : Nat) : Int) ((4 : Nat) : Int) dirList initState.board false =
        some (B, anyIg initState.board (colorOf initState.current_turn)
          (oppColorOf initState.current_turn) ((2 : Nat) : Int) ((4 : Nat) : Int) dirList) ∧
      (∀ x y : Int,
        (flipHit initState.board (colorOf initState.current_turn)
            (oppColorOf initState.current_turn) ((2 : Nat) : Int) ((4 : Nat) : Int)
            dirList x y = true →
          cellAt B x y = colorOf initState.current_turn) ∧
        (flipHit initState.board (colorOf initState.current_turn)
            (oppColorOf initState.current_turn) ((2 : Nat) : Int) ((4 : Nat) : Int)
            dirList x y = false →
          cellAt B x y = cellAt initState.board x y)) ∧
      (anyIg initState.board (colorOf initState.current_turn)
          (oppColorOf initState.current_turn) ((2 : Nat) : Int) ((4 : Nat) : Int)
          dirList = true →
        handle_click initState 2 4 =
          some ({ board := updateCell B ⟨2, by omega⟩ ⟨4, by omega⟩
                    (colorOf initState.current_turn),
                  current_turn := toggleTurn initState.current_turn,
                  white_score := initState.white_score,
                  black_score := initState.black_score }, true)) :=
  claim4_order_independence initState 2 4 (by omega) (by omega) (by decide)

/-- Claim C1 (amended): for an in-bounds target, the click succeeds with a move
iff the target is Empty and some direction's ray has its first cell holding the
opponent colour and reaches a cell of the active player's colour further along
within bounds — intermediate cells need not all be opponent-coloured (the scan
walks on through Empty cells once the first opponent cell is seen). -/
theorem claim1_legality_amended (gs : GameState) (row col : Nat)
    (h1 : row < 8) (h2 : col < 8) :
    (∃ gs2, handle_click gs row col = some (gs2, true)) ↔
      (gs.board ⟨row, h1⟩ ⟨col, h2⟩ = CellState.Empty ∧
        ∃ d ∈ dirList, igniteCond gs.board (colorOf gs.current_turn)
          (oppColorOf gs.current_turn) (row : Int) (col : Int) d) := by
  have hct := colorOf_ne_oppColorOf gs.current_turn
  constructor
  · rintro ⟨gs2, hs⟩
    by_cases hocc : gs.board ⟨row, h1⟩ ⟨col, h2⟩ = CellState.Empty
    · refine ⟨hocc, ?_⟩
      obtain ⟨B, hmain, hdesc⟩ := handle_click_main gs row col h1 h2 hocc
      rw [hmain] at hs
      by_cases hig : anyIg gs.board (colorOf gs.current_turn) (oppColorOf gs.current_turn)
          (row : Int) (col : Int) dirList = true
      · simp only [anyIg, List.any_eq_true] at hig
        obtain ⟨d, hd, hsome⟩ := hig
        rw [Option.isSome_iff_exists] at hsome
        obtain ⟨k, hk⟩ := hsome
        rw [seekIdx_eq_some] at hk
        obtain ⟨hin, hk2, hk8, hbounds, ht1, hcur, hmin⟩ :=
          seek_sound gs.board (colorOf gs.current_turn) (oppColorOf gs.current_turn)
            (row : Int) (col : Int) d.1 d.2 k hct hk
        refine ⟨d, hd, ?_⟩
        unfold igniteCond
        refine ⟨?_, ht1, ⟨k, Finset.mem_Icc.mpr ⟨hk2, hk8⟩, ?_, hcur⟩⟩
        · have hb1 := hbounds 1 (by omega) (by omega)
          simpa using hb1
        · intro i hi
          obtain ⟨hi1, hi2⟩ := Finset.mem_Icc.mp hi
          exact hbounds i hi1 hi2
      · rw [if_neg hig] at hs
        have hsnd := congrArg Prod.snd (Option.some.inj hs)
        simp at hsnd
    · rw [handle_click_occupied gs row col h1 h2 hocc] at hs
      have hsnd := congrArg Prod.snd (Option.some.inj hs)
      simp at hsnd
  · rintro ⟨hEmpty, d, hd, hig⟩
    unfold igniteCond at hig
    obtain ⟨hinb1, ht1, k, hkmem, hbounds, hcur⟩ := hig
    obtain ⟨hk2, hk8⟩ := Finset.mem_Icc.mp hkmem
    obtain ⟨B, hmain, hdesc⟩ := handle_click_main gs row col h1 h2 hEmpty
    have hex : ∃ i : Nat, (1 ≤ i ∧ i ≤ k) ∧
        cellAt gs.board ((row : Int) + (i : Int) * d.1) ((col : Int) + (i : Int) * d.2) =
          colorOf gs.current_turn := ⟨k, ⟨by omega, le_refl k⟩, hcur⟩
    obtain ⟨⟨hk01, hk0k⟩, hk0cur⟩ := Nat.find_spec hex
    have hk02 : 2 ≤ Nat.find hex := by
      by_contra hlt
      have h1eq : Nat.find hex = 1 := by omega
      rw [h1eq] at hk0cur
      have hcell1 : cellAt gs.board ((row : Int) + d.1) ((col : Int) + d.2) =
          colorOf gs.current_turn := by
        simpa using hk0cur
      rw [ht1] at hcell1
      exact hct hcell1.symm
    have hseek : seek gs.board (colorOf gs.current_turn) (oppColorOf gs.current_turn)
        (row : Int) (col : Int) d.1 d.2 = some (some (Nat.find hex)) := by
      apply seek_complete gs.board (colorOf gs.current_turn) (oppColorOf gs.current_turn)
        (row : Int) (col : Int) d.1 d.2 (Nat.find hex) hct (by omega) hk02 (by omega)
        (fun i hi1 hi2 => hbounds i (Finset.mem_Icc.mpr ⟨hi1, by omega⟩)) ht1 hk0cur
      intro i hi1 hik hcell
      exact Nat.find_min hex hik ⟨⟨hi1, by omega⟩, hcell⟩
    have hig2 : anyIg gs.board (colorOf gs.current_turn) (oppColorOf gs.current_turn)
        (row : Int) (col : Int) dirList = true := by
      simp only [anyIg, List.any_eq_true]
      refine ⟨d, hd, ?_⟩
      have hidx : seekIdx gs.board (colorOf gs.current_turn) (oppColorOf gs.current_turn)
          (row : Int) (col : Int) d = some (Nat.find hex) :=
        (seekIdx_eq_some gs.board (colorOf gs.current_turn) (oppColorOf gs.current_turn)
          (row : Int) (col : Int) d (Nat.find hex)).mpr hseek
      rw [hidx]
      rfl
    rw [hmain, if_pos hig2]
    exact ⟨_, rfl⟩

theorem claim1_witness : ∃ gs2, handle_click initState 2 4 = some (gs2, true) :=
  (claim1_legality_amended initState 2 4 (by omega) (by omega)).mpr
    ⟨by decide, ⟨(1, 0), by decide, by decide⟩⟩

/-- Claim C1 counterexample: on cexState (ray east from (0,0) reads Black,
Empty, White; everything else Empty; White to move) the click at (0,0)
succeeds, yet no ray consists of opponent cells followed immediately by a
current-player cell — the claim's iff fails as stated. -/
theorem claim1_counterexample :
    (∃ gs2, handle_click cexState 0 0 = some (gs2, true)) ∧
    ¬ (cexState.board ⟨0, by omega⟩ ⟨0, by omega⟩ = CellState.Empty ∧
        ∃ d ∈ dirList, specRay cexState.board (colorOf cexState.current_turn)
          (oppColorOf cexState.current_turn) 0 0 d) := by
  constructor
  · exact ⟨cexAfter, by decide⟩
  · rintro ⟨-, hray⟩
    exact (by decide : ¬ ∃ d ∈ dirList, specRay cexState.board
      (colorOf cexState.current_turn) (oppColorOf cexState.current_turn) 0 0 d) hray

/-- Claim C2: after a successful move, every cell strictly between the target
and an ignition cell along an igniting ray holds the active player's colour,
every cell on a non-igniting ray that lies on no igniting ray is unchanged,
and the target cell holds the active player's colour. -/
theorem claim2_flip_correctness (gs gs2 : GameState) (row col : Nat)
    (h1 : row < 8) (h2 : col < 8)
    (hs : handle_click gs row col = some (gs2, true)) :
    (∀ d ∈ dirList, ∀ k : Nat,
      seekIdx gs.board (colorOf gs.current_turn) (oppColorOf gs.current_turn)
          (row : Int) (col : Int) d = some k →
      ∀ i : Nat, 1 ≤ i → i < k →
        cellAt gs2.board ((row : Int) + (i : Int) * d.1) ((col : Int) + (i : Int) * d.2) =
          colorOf gs.current_turn) ∧
    (∀ d ∈ dirList,
      seekIdx gs.board (colorOf gs.current_turn) (oppColorOf gs.current_turn)
          (row : Int) (col : Int) d = none →
      ∀ i : Nat, 1 ≤ i → i ≤ 8 →
      (∀ e ∈ dirList, ∀ k2 : Nat,
        seekIdx gs.board (colorOf gs.current_turn) (oppColorOf gs.current_turn)
            (row : Int) (col : Int) e = some k2 →
        ∀ j : Nat, 1 ≤ j → j ≤ k2 →
          ¬((row : Int) + (i : Int) * d.1 = (row : Int) + (j : Int) * e.1 ∧
            (col : Int) + (i : Int) * d.2 = (col : Int) + (j : Int) * e.2)) →
      cellAt gs2.board ((row : Int) + (i : Int) * d.1) ((col : Int) + (i : Int) * d.2) =
        cellAt gs.board ((row : Int) + (i : Int) * d.1) ((col : Int) + (i : Int) * d.2)) ∧
    cellAt gs2.board (row : Int) (col : Int) = colorOf gs.current_turn := by
  by_cases hocc : gs.board ⟨row, h1⟩ ⟨col, h2⟩ = CellState.Empty
  case neg =>
    rw [handle_click_occupied gs row col h1 h2 hocc] at hs
    have hsnd := congrArg Prod.snd (Option.some.inj hs)
    simp at hsnd
  case pos =>
  obtain ⟨B, hmain, hdesc⟩ := handle_click_main gs row col h1 h2 hocc
  rw [hmain] at hs
  by_cases hig : anyIg gs.board (colorOf gs.current_turn) (oppColorOf gs.current_turn)
      (row : Int) (col : Int) dirList = true
  case neg =>
    rw [if_neg hig] at hs
    have hsnd := congrArg Prod.snd (Option.some.inj hs)
    simp at hsnd
  case pos =>
  rw [if_pos hig] at hs
  simp only [Option.some.injEq, Prod.mk.injEq, and_true] at hs
  have hboard : gs2.board = updateCell B ⟨row, h1⟩ ⟨col, h2⟩ (colorOf gs.current_turn) := by
    rw [← hs]
  refine ⟨?_, ?_, ?_⟩
  · intro d hd k hidx i hi1 hik
    have hhit : flipHit gs.board (colorOf gs.current_turn) (oppColorOf gs.current_turn)
        (row : Int) (col : Int) dirList
        ((row : Int) + (i : Int) * d.1) ((col : Int) + (i : Int) * d.2) = true := by
      simp only [flipHit, List.any_eq_true]
      refine ⟨d, hd, ?_⟩
      rw [hidx]
      simp only [decide_eq_true_eq]
      exact ⟨i, Finset.mem_Icc.mpr ⟨hi1, by omega⟩, rfl, rfl⟩
    have hB := (hdesc _ _).1 hhit
    rw [hboard, cellAt_updateCell_nat]
    by_cases hat : (row : Int) + (i : Int) * d.1 = (row : Int) ∧
        (col : Int) + (i : Int) * d.2 = (col : Int)
    · rw [if_pos hat]
    · rw [if_neg hat]
      exact hB
  · intro d hd hidxnone i hi1 hi8 hno
    have hhit : flipHit gs.board (colorOf gs.current_turn) (oppColorOf gs.current_turn)
        (row : Int) (col : Int) dirList
        ((row : Int) + (i : Int) * d.1) ((col : Int) + (i : Int) * d.2) = false := by
      simp only [flipHit, List.any_eq_false]
      intro e he
      cases hidxe : seekIdx gs.board (colorOf gs.current_turn) (oppColorOf gs.current_turn)
          (row : Int) (col : Int) e with
      | none => simp
      | some k2 =>
        simp only [decide_eq_true_eq]
        rintro ⟨j, hjmem, hx, hy⟩
        obtain ⟨hj1, hj2⟩ := Finset.mem_Icc.mp hjmem
        exact hno e he k2 hidxe j hj1 hj2 ⟨hx, hy⟩
    have hB := (hdesc _ _).2 hhit
    rw [hboard, cellAt_updateCell_nat, if_neg (posNeZero (row : Int) (col : Int) d.1 d.2
      (by rw [Prod.mk.eta]; exact hd) i hi1)]
    exact hB
  · rw [hboard, cellAt_updateCell_nat, if_pos ⟨rfl, rfl⟩]

theorem claim2_witness :
    handle_click initState 2 4 = some (afterFirstMove, true) ∧
    cellAt afterFirstMove.board ((2 : Nat) : Int) ((4 : Nat) : Int) =
      colorOf initState.current_turn :=
  ⟨by decide,
    (claim2_flip_correctness initState afterFirstMove 2 4 (by omega) (by omega) (by decide)).2.2⟩

/-- Claim C10: the move resolution is total — on an in-bounds target
handle_click always produces a result, the directional scan loop always has a
definite outcome within fuel 8 (at most 8 steps from an in-bounds start), and
whenever a direction ignites at step count k, the ignition cell is
target + k·(dr,dc) with k ≥ 1, a ray cell equals the target exactly at offset
0, and the backwards flip loop completes (it stops exactly on reaching the
target). -/
theorem claim10_loop_termination (gs : GameState) (row col : Nat)
    (h1 : row < 8) (h2 : col < 8) (d : Int × Int) (hd : d ∈ dirList) :
    (handle_click gs row col).isSome = true ∧
    (∀ (b : Board) (cur tgt : CellState) (lockOn : Bool),
      (seekAux b cur tgt d.1 d.2 8 (row : Int) (col : Int) lockOn).isSome = true) ∧
    (∀ (b : Board) (cur tgt : CellState) (k : Nat), cur ≠ tgt →
      seekIdx b cur tgt (row : Int) (col : Int) d = some k →
      1 ≤ k ∧ k ≤ 8 ∧
      (∀ j : Nat, (((row : Int) + (j : Int) * d.1 = (row : Int) ∧
          (col : Int) + (j : Int) * d.2 = (col : Int)) ↔ j = 0)) ∧
      (∀ b2 : Board, (flipBackAux cur (row : Int) (col : Int) d.1 d.2 8
          ((row : Int) + (k : Int) * d.1) ((col : Int) + (k : Int) * d.2) b2).isSome = true)) := by
  have hd2 : (d.1, d.2) ∈ dirList := by rw [Prod.mk.eta]; exact hd
  have hin : inBp (row : Int) (col : Int) := by omega
  refine ⟨?_, ?_, ?_⟩
  · by_cases hocc : gs.board ⟨row, h1⟩ ⟨col, h2⟩ = CellState.Empty
    · obtain ⟨B, hmain, -⟩ := handle_click_main gs row col h1 h2 hocc
      rw [hmain]
      by_cases hig : anyIg gs.board (colorOf gs.current_turn) (oppColorOf gs.current_turn)
          (row : Int) (col : Int) dirList = true
      · rw [if_pos hig]; rfl
      · rw [if_neg hig]; rfl
    · rw [handle_click_occupied gs row col h1 h2 hocc]; rfl
  · intro b cur tgt lockOn
    exact seekAux_total8 b cur tgt d.1 d.2 hd2 (row : Int) (col : Int) hin lockOn
  · intro b cur tgt k hct hidx
    rw [seekIdx_eq_some] at hidx
    obtain ⟨-, hk2, hk8, hbounds, -, -, -⟩ :=
      seek_sound b cur tgt (row : Int) (col : Int) d.1 d.2 k hct hidx
    refine ⟨by omega, hk8, ?_, ?_⟩
    · intro j
      constructor
      · intro hj
        by_contra hj0
        exact posNeZero (row : Int) (col : Int) d.1 d.2 hd2 j (by omega) hj
      · rintro rfl
        constructor <;> simp
    · intro b2
      obtain ⟨b3, hb3, -⟩ := flipBackAux_spec cur (row : Int) (col : Int) d.1 d.2 hd2 k 8
        b2 hk8 hbounds
      rw [hb3]
      rfl

theorem claim10_witness : (handle_click initState 2 4).isSome = true :=
  (claim10_loop_termination initState 2 4 (by omega) (by omega) (1, 0) (by decide)).1

